import Mathlib

/-!
Verification of the component-resolution pipeline of the
`eleventy-plugin-components-bundler` repository.

The JavaScript sources are shallowly embedded as Lean definitions:

* components and the name → component map (`src/lib/component-discovery.js`
  consumers' view; the map itself is an association list),
* `validateRequirements` from `src/lib/requirement-validator.js`,
* the before-build requirement-check step of `src/index.js`,
* `extractComponentName` and the scanning/merging skeleton of
  `detectUsedComponents` from `src/lib/template-parser.js`,
* the entry-point collection of `src/lib/esbuild-processor.js`.

Modules referenced by the plugin but absent from the source tree
(`dependency-resolver.js`, `component-discovery.js`'s `isPathSafe`,
`validation.js`) are modelled from the specification; each such definition
carries a doc comment starting with `Modelled from the spec:`.

Filesystem access is embedded as explicit oracles (`String → Bool` for
existence, `String → Except String String` for reads), so every definition
is a total, executable Lean function.
-/

namespace EPB

/--
A discovered component, as consumed by the resolver, validator and bundler
(`src/lib/requirement-validator.js`, `src/lib/esbuild-processor.js`).
`requires` and `dependencies` are `Option`s: `none` embeds an absent field,
matching the JavaScript truthiness fallback `component.requires ||
component.dependencies || []` (a present empty array is truthy, so it does
not fall through).
-/
structure Component where
  name : String
  requires : Option (List String) := none
  dependencies : Option (List String) := none
  styles : List String := []
  scripts : List String := []
  path : String := ""
deriving DecidableEq, Repr

/-- The name → component map is embedded as an association list; duplicate
keys cannot occur (`createComponentMap` throws on duplicates), so
first-match lookup agrees with `Map.get`. -/
def mapGet : List (String × Component) → String → Option Component
  | [], _ => none
  | (k, c) :: rest, n => if k = n then some c else mapGet rest n

/-- `componentMap.has(name)` of `src/lib/requirement-validator.js`. -/
def mapHas (m : List (String × Component)) (n : String) : Bool :=
  (mapGet m n).isSome

/-- The requirement list actually read by the pipeline:
`component.requires || component.dependencies || []`
(`src/lib/requirement-validator.js` line 33). -/
def reqsOf (c : Component) : List String :=
  match c.requires with
  | some r => r
  | none =>
    match c.dependencies with
    | some d => d
    | none => []

/-- The error string pushed by `validateRequirements`
(`src/lib/requirement-validator.js` line 37). -/
def requirementError (name req : String) : String :=
  "Component \"" ++ name ++ "\" requires \"" ++ req ++ "\" which was not found"

/--
`validateRequirements(neededComponents, componentMap)` from
`src/lib/requirement-validator.js` lines 20–43.  The JavaScript iterates the
needed set, skips names missing from the map, and for each requirement of a
found component pushes an error when the requirement is absent from the map.
The function only builds and returns the error array; it never throws, so the
embedding is a total function. -/
def validateRequirements (neededComponents : List String)
    (componentMap : List (String × Component)) : List String :=
  neededComponents.flatMap (fun componentName =>
    match mapGet componentMap componentName with
    | none => []
    | some component =>
      ((reqsOf component).filter (fun r => !(mapHas componentMap r))).map
        (requirementError component.name))

/--
The requirement-check step of the before-build hook, `src/index.js`
lines 117–125:

```
try {
  validateRequirements(neededComponents, componentMap);
} catch (error) {
  console.error(`[bundled-components] ${error.message}`);
  if (options.validation.strict) { throw error; }
}
```

`validateRequirements` returns its error array and never throws, and the
caller discards the return value, so the `catch` body — the `console.error`
log and the strict-mode `throw` — is unreachable.  The step is embedded as
producing the error it escalates (never) and the lines it logs (none). -/
structure BuildStepResult where
  thrown : Option String
  logged : List String
deriving DecidableEq, Repr

/-- Embedding of `src/index.js` lines 117–125: the diagnostics returned by
`validateRequirements` are discarded, nothing is thrown and nothing is
logged, for strict and non-strict configurations alike. -/
def beforeBuildRequirementCheck (neededComponents : List String)
    (componentMap : List (String × Component)) (strict : Bool) : BuildStepResult :=
  let _errors := validateRequirements neededComponents componentMap
  let _ := strict
  { thrown := none, logged := [] }

/-- A component map in which the only component requires a name that was
never discovered. -/
def heroMissingMap : List (String × Component) :=
  [("hero", { name := "hero", requires := some ["missing"] })]

/--
C1.  The claim says that with `validation.strict = true` the before-build
phase escalates a missing-requirement diagnostic to a thrown fatal error,
and that with `strict = false` the diagnostic is surfaced via logs.  The
code does neither: `validateRequirements` returns its error array (it never
throws), `src/index.js` discards the returned array, and the `catch` block
holding both the log and the strict-mode `throw` is dead.  At the failing
input (needed = {hero}, map = hero → requires ["missing"]) the diagnostic
exists, yet the build step throws nothing under `strict = true` and logs
nothing under `strict = false`. -/
theorem beforeBuild_discards_requirement_diagnostics :
    validateRequirements ["hero"] heroMissingMap
        = [requirementError "hero" "missing"]
      ∧ (beforeBuildRequirementCheck ["hero"] heroMissingMap true).thrown = none
      ∧ (beforeBuildRequirementCheck ["hero"] heroMissingMap false).logged = [] := by
  refine ⟨?_, rfl, rfl⟩
  rfl

/-- Membership characterization of the error array built by
`validateRequirements`: errors arise exactly from a needed name that
resolves to a component and a requirement of that component absent from the
map. -/
theorem mem_validateRequirements {e : String} {needed : List String}
    {m : List (String × Component)} :
    e ∈ validateRequirements needed m ↔
      ∃ n ∈ needed, ∃ c, mapGet m n = some c ∧
        ∃ r ∈ reqsOf c, mapHas m r = false ∧ e = requirementError c.name r := by
  unfold validateRequirements
  rw [List.mem_flatMap]
  constructor
  · rintro ⟨n, hn, he⟩
    refine ⟨n, hn, ?_⟩
    cases h : mapGet m n with
    | none => rw [h] at he; simp at he
    | some c =>
      rw [h] at he
      simp only [List.mem_map, List.mem_filter] at he
      obtain ⟨r, ⟨hr, hmiss⟩, rfl⟩ := he
      exact ⟨c, rfl, r, hr, by simpa using hmiss, rfl⟩
  · rintro ⟨n, hn, c, hc, r, hr, hmiss, rfl⟩
    refine ⟨n, hn, ?_⟩
    rw [hc]
    simp only [List.mem_map, List.mem_filter]
    exact ⟨r, ⟨hr, by simp [hmiss]⟩, rfl⟩

/-- The number of errors equals the sum, over needed names found in the map,
of the number of missing requirements of that name: one error per missing
requirement edge. -/
theorem length_validateRequirements (needed : List String)
    (m : List (String × Component)) :
    (validateRequirements needed m).length
      = (needed.map (fun n =>
          match mapGet m n with
          | none => 0
          | some c => ((reqsOf c).filter (fun r => !(mapHas m r))).length)).sum := by
  induction needed with
  | nil => rfl
  | cons n rest ih =>
    simp only [validateRequirements, List.flatMap_cons, List.length_append,
      List.map_cons, List.sum_cons] at *
    rw [ih]
    cases h : mapGet m n <;> simp [h]

/--
C2.  `validateRequirements` (a total function in this embedding — the
JavaScript only builds and returns an array, it never throws) returns:
an error exactly for each pair of a needed name resolving to a component
and a requirement of it absent from the map, formatted from the requiring
component's name and the missing requirement with "was not found"; one
error per such edge (the length equation); and the empty array exactly when
every requirement of every resolvable needed name is present.  Needed names
absent from the map contribute nothing, and names outside the needed set
are never consulted. -/
theorem validateRequirements_characterization (needed : List String)
    (m : List (String × Component)) :
    (∀ e, e ∈ validateRequirements needed m ↔
        ∃ n ∈ needed, ∃ c, mapGet m n = some c ∧
          ∃ r ∈ reqsOf c, mapHas m r = false ∧ e = requirementError c.name r)
      ∧ (validateRequirements needed m).length
          = (needed.map (fun n =>
              match mapGet m n with
              | none => 0
              | some c => ((reqsOf c).filter (fun r => !(mapHas m r))).length)).sum
      ∧ (validateRequirements needed m = [] ↔
          ∀ n ∈ needed, ∀ c, mapGet m n = some c →
            ∀ r ∈ reqsOf c, mapHas m r = true) := by
  refine ⟨fun _ => mem_validateRequirements, length_validateRequirements needed m, ?_⟩
  rw [List.eq_nil_iff_forall_not_mem]
  constructor
  · intro h n hn c hc r hr
    by_contra hmiss
    exact h _ (mem_validateRequirements.mpr
      ⟨n, hn, c, hc, r, hr, by simpa using hmiss, rfl⟩)
  · intro h e he
    obtain ⟨n, hn, c, hc, r, hr, hmiss, _⟩ := mem_validateRequirements.mp he
    have hsat := h n hn c hc r hr
    simp [hsat] at hmiss

/-- Concrete instantiation of `validateRequirements_characterization`: for
the map whose only component `hero` requires the undiscovered `missing`,
the characterization yields the missing-requirement error. -/
theorem validateRequirements_characterization_witness :
    requirementError "hero" "missing" ∈ validateRequirements ["hero"] heroMissingMap :=
  ((validateRequirements_characterization ["hero"] heroMissingMap).1 _).mpr
    ⟨"hero", by decide, { name := "hero", requires := some ["missing"] }, rfl,
      "missing", by decide, rfl, rfl⟩

/-- Requirement edges leaving a name: the `requires`/`dependencies` list of
the component the name resolves to, and nothing for an unresolvable name
("a name with no corresponding Component contributes no further
expansion"). -/
def reqsOfName (m : List (String × Component)) (n : String) : List String :=
  match mapGet m n with
  | some c => reqsOf c
  | none => []

/-- Every name that can ever be enqueued by requirement expansion: the
concatenation of all requirement lists stored in the map. -/
def mapReqsUniverse (m : List (String × Component)) : List String :=
  m.flatMap (fun p => reqsOf p.2)

theorem mapGet_mem {m : List (String × Component)} {n : String} {c : Component}
    (h : mapGet m n = some c) : (n, c) ∈ m := by
  induction m with
  | nil => simp [mapGet] at h
  | cons p rest ih =>
    obtain ⟨k, c'⟩ := p
    by_cases hk : k = n
    · subst hk
      simp [mapGet] at h
      subst h
      exact List.mem_cons_self _ _
    · simp [mapGet, hk] at h
      exact List.mem_cons_of_mem _ (ih h)

theorem reqsOfName_subset_universe {m : List (String × Component)} {n x : String}
    (hx : x ∈ reqsOfName m n) : x ∈ mapReqsUniverse m := by
  unfold reqsOfName at hx
  cases h : mapGet m n with
  | none => rw [h] at hx; cases hx
  | some c =>
    rw [h] at hx
    exact List.mem_flatMap.mpr ⟨(n, c), mapGet_mem h, hx⟩

theorem chunk_length_le {α β : Type} (f : α → List β) :
    ∀ (l : List α) (p : α), p ∈ l → (f p).length ≤ (l.flatMap f).length := by
  intro l
  induction l with
  | nil => intro p hp; cases hp
  | cons a rest ih =>
    intro p hp
    rw [List.flatMap_cons, List.length_append]
    rcases List.mem_cons.mp hp with hp | hp
    · subst hp; exact Nat.le_add_right _ _
    · exact Nat.le_trans (ih p hp) (Nat.le_add_left _ _)

theorem reqsOfName_length_le (m : List (String × Component)) (n : String) :
    (reqsOfName m n).length ≤ (mapReqsUniverse m).length := by
  unfold reqsOfName
  cases h : mapGet m n with
  | none => simp
  | some c => exact chunk_length_le (fun p => reqsOf p.2) m (n, c) (mapGet_mem h)

/-- Termination measure for the breadth-first worklist: the number of
not-yet-visited names among the queue and all requirement edges, weighted
so that enqueueing a component's requirements is always paid for by newly
visiting a name, plus the queue length. -/
def resolveMeasure (m : List (String × Component)) (queue visited : List String) : Nat :=
  queue.length + ((mapReqsUniverse m).length + 1) *
    ((queue ++ mapReqsUniverse m).toFinset.filter (fun x => x ∉ visited)).card

/--
Modelled from the spec: the worklist core of `resolveAllDependencies` from
`src/lib/dependency-resolver.js`, a file the source tree does not contain
(only its unit tests and its importer `src/index.js` are present).  Spec
§4.3: visiting a name adds it to the result and enqueues every entry of its
`requires` (else `dependencies`) list; an unresolvable name still becomes a
member but expands no further; revisiting an already-visited name is a
no-op, which is what makes circular requirement graphs terminate.  The
recursion is well-founded by `resolveMeasure`, so resolution terminates on
every input, cyclic graphs included. -/
def resolveAux (m : List (String × Component)) (queue visited : List String) :
    List String :=
  match queue with
  | [] => visited
  | n :: rest =>
    if n ∈ visited then resolveAux m rest visited
    else resolveAux m (rest ++ reqsOfName m n) (n :: visited)
termination_by resolveMeasure m queue visited
decreasing_by
  · -- an already-visited name is dequeued: the unvisited set is unchanged
    -- and the queue shrinks
    simp only [resolveMeasure]
    have hset : ((rest ++ mapReqsUniverse m).toFinset.filter (fun x => x ∉ visited))
        = (((n :: rest) ++ mapReqsUniverse m).toFinset.filter (fun x => x ∉ visited)) := by
      rw [List.cons_append, List.toFinset_cons, Finset.filter_insert]
      simp_all
    rw [hset]
    exact Nat.add_lt_add_right (by simp) _
  · -- a new name is visited: the unvisited set strictly shrinks, which pays
    -- for the enqueued requirement edges
    simp only [resolveMeasure]
    have hsub : ((rest ++ reqsOfName m n ++ mapReqsUniverse m).toFinset.filter
          (fun x => x ∉ n :: visited))
        ⊆ (((n :: rest) ++ mapReqsUniverse m).toFinset.filter (fun x => x ∉ visited)) := by
      intro x hx
      simp only [Finset.mem_filter, List.mem_toFinset, List.mem_append,
        List.mem_cons, not_or] at hx ⊢
      refine ⟨?_, hx.2.2⟩
      rcases hx.1 with (hx1 | hx1) | hx1
      · exact Or.inl (Or.inr hx1)
      · exact Or.inr (reqsOfName_subset_universe hx1)
      · exact Or.inr hx1
    have hn₁ : n ∈ (((n :: rest) ++ mapReqsUniverse m).toFinset.filter
        (fun x => x ∉ visited)) := by
      rw [Finset.mem_filter, List.mem_toFinset]
      exact ⟨by simp, by assumption⟩
    have hn₂ : n ∉ ((rest ++ reqsOfName m n ++ mapReqsUniverse m).toFinset.filter
        (fun x => x ∉ n :: visited)) := by
      simp only [Finset.mem_filter, List.mem_toFinset, List.mem_cons, not_or]
      tauto
    have hlt := Finset.card_lt_card ((Finset.ssubset_iff_of_subset hsub).mpr
      ⟨n, hn₁, hn₂⟩)
    have hrq := reqsOfName_length_le m n
    have hmul := mul_le_mul_left' (Nat.succ_le_of_lt hlt) ((mapReqsUniverse m).length + 1)
    rw [Nat.mul_succ] at hmul
    simp only [List.length_append, List.length_cons]
    linarith

theorem resolveAux_nil (m : List (String × Component)) (v : List String) :
    resolveAux m [] v = v := by
  simp [resolveAux]

theorem resolveAux_cons_mem (m : List (String × Component)) {n : String}
    {v : List String} (rest : List String) (h : n ∈ v) :
    resolveAux m (n :: rest) v = resolveAux m rest v := by
  rw [resolveAux]
  simp [h]

theorem resolveAux_cons_not_mem (m : List (String × Component)) {n : String}
    {v : List String} (rest : List String) (h : ¬ n ∈ v) :
    resolveAux m (n :: rest) v = resolveAux m (rest ++ reqsOfName m n) (n :: v) := by
  rw [resolveAux]
  simp [h]

theorem visited_subset_resolveAux (m : List (String × Component)) :
    ∀ (q v : List String), ∀ x ∈ v, x ∈ resolveAux m q v := by
  intro q v
  induction q, v using resolveAux.induct m with
  | case1 v => intro x hx; rw [resolveAux_nil]; exact hx
  | case2 v n rest h ih =>
    intro x hx
    rw [resolveAux_cons_mem m rest h]
    exact ih x hx
  | case3 v n rest h ih =>
    intro x hx
    rw [resolveAux_cons_not_mem m rest h]
    exact ih x (List.mem_cons_of_mem _ hx)

theorem queue_subset_resolveAux (m : List (String × Component)) :
    ∀ (q v : List String), ∀ x ∈ q, x ∈ resolveAux m q v := by
  intro q v
  induction q, v using resolveAux.induct m with
  | case1 v => intro x hx; cases hx
  | case2 v n rest h ih =>
    intro x hx
    rw [resolveAux_cons_mem m rest h]
    rcases List.mem_cons.mp hx with rfl | hx
    · exact visited_subset_resolveAux m rest v x h
    · exact ih x hx
  | case3 v n rest h ih =>
    intro x hx
    rw [resolveAux_cons_not_mem m rest h]
    rcases List.mem_cons.mp hx with rfl | hx
    · exact visited_subset_resolveAux m _ _ x (List.mem_cons_self _ _)
    · exact ih x (List.mem_append_left _ hx)

/-- If every visited name's requirement edges lead into the queue or the
visited set, the final result is closed under requirement edges. -/
theorem resolveAux_closed (m : List (String × Component)) :
    ∀ (q v : List String),
      (∀ n ∈ v, ∀ r ∈ reqsOfName m n, r ∈ q ∨ r ∈ v) →
      ∀ x ∈ resolveAux m q v, ∀ r ∈ reqsOfName m x, r ∈ resolveAux m q v := by
  intro q v
  induction q, v using resolveAux.induct m with
  | case1 v =>
    intro hinv x hx r hr
    rw [resolveAux_nil] at hx ⊢
    rcases hinv x hx r hr with h | h
    · cases h
    · exact h
  | case2 v n rest h ih =>
    intro hinv
    rw [resolveAux_cons_mem m rest h]
    apply ih
    intro n' hv r hr
    rcases hinv n' hv r hr with hq | hv'
    · rcases List.mem_cons.mp hq with rfl | hq
      · exact Or.inr h
      · exact Or.inl hq
    · exact Or.inr hv'
  | case3 v n rest h ih =>
    intro hinv
    rw [resolveAux_cons_not_mem m rest h]
    apply ih
    intro n' hv r hr
    rcases List.mem_cons.mp hv with rfl | hv
    · exact Or.inl (List.mem_append_right _ hr)
    · rcases hinv n' hv r hr with hq | hv'
      · rcases List.mem_cons.mp hq with rfl | hq
        · exact Or.inr (List.mem_cons_self _ _)
        · exact Or.inl (List.mem_append_left _ hq)
      · exact Or.inr (List.mem_cons_of_mem _ hv')

/-- Any requirement-closed superset of the queue and the visited set
contains the whole result: the worklist never invents names. -/
theorem resolveAux_minimal (m : List (String × Component)) (S : List String)
    (hS : ∀ n ∈ S, ∀ r ∈ reqsOfName m n, r ∈ S) :
    ∀ (q v : List String), (∀ x ∈ q, x ∈ S) → (∀ x ∈ v, x ∈ S) →
      ∀ x ∈ resolveAux m q v, x ∈ S := by
  intro q v
  induction q, v using resolveAux.induct m with
  | case1 v =>
    intro _ hv x hx
    rw [resolveAux_nil] at hx
    exact hv x hx
  | case2 v n rest h ih =>
    intro hq hv
    rw [resolveAux_cons_mem m rest h]
    exact ih (fun x hx => hq x (List.mem_cons_of_mem _ hx)) hv
  | case3 v n rest h ih =>
    intro hq hv
    rw [resolveAux_cons_not_mem m rest h]
    apply ih
    · intro x hx
      rcases List.mem_append.mp hx with hx | hx
      · exact hq x (List.mem_cons_of_mem _ hx)
      · exact hS n (hq n (List.mem_cons_self _ _)) x hx
    · intro x hx
      rcases List.mem_cons.mp hx with rfl | hx
      · exact hq x (List.mem_cons_self _ _)
      · exact hv x hx

/-- Modelled from the spec: `resolveAllDependencies(usedComponents,
componentMap)` of the absent `src/lib/dependency-resolver.js` — the
breadth-first, cycle-tolerant closure of the used set over requirement
edges (spec §4.3); only the resulting set is observable. -/
def resolveAllDependencies (usedComponents : List String)
    (componentMap : List (String × Component)) : List String :=
  resolveAux componentMap usedComponents []

/-- A name is reached from the used set by following requirement edges:
either it is used directly, or it is required by a reached name.  Every
name on a requirement cycle reachable from the used set, and every reached
name with no corresponding component, is `Reaches`-derivable. -/
inductive Reaches (m : List (String × Component)) (used : List String) : String → Prop
  | base {n : String} : n ∈ used → Reaches m used n
  | step {n r : String} : Reaches m used n → r ∈ reqsOfName m n → Reaches m used r

/--
C3.  `resolveAllDependencies` is a total function (its worklist recursion
is well-founded by `resolveMeasure`), so resolution terminates on every
used set and component map, self-loops and mutual cycles included; and
every name reached from the used set along requirement edges is a member of
the result.  In particular both members of a reachable cycle (`Reaches` is
closed under edges, cyclic or not) and a reached name with no corresponding
component in the map (`Reaches.step` does not require the target to
resolve; such a name has `reqsOfName = []`, so it expands no further) are
members. -/
theorem resolveAllDependencies_reachable_mem (used : List String)
    (m : List (String × Component)) :
    ∀ n, Reaches m used n → n ∈ resolveAllDependencies used m := by
  intro n h
  induction h with
  | base hn => exact queue_subset_resolveAux m used [] _ hn
  | step _ hr ih =>
    exact resolveAux_closed m used [] (by simp) _ ih _ hr

/-- Concrete instantiation of `resolveAllDependencies_reachable_mem` on the
mutual cycle a ↔ b and on a requirement absent from the map: both cycle
members end up in the result, and so does the unresolvable name. -/
def cycleMap : List (String × Component) :=
  [("a", { name := "a", requires := some ["b"] }),
   ("b", { name := "b", requires := some ["a"] })]

theorem resolveAllDependencies_reachable_mem_witness :
    "a" ∈ resolveAllDependencies ["a"] cycleMap
      ∧ "b" ∈ resolveAllDependencies ["a"] cycleMap
      ∧ "missing" ∈ resolveAllDependencies ["hero"] heroMissingMap :=
  ⟨resolveAllDependencies_reachable_mem ["a"] cycleMap "a" (Reaches.base (by decide)),
   resolveAllDependencies_reachable_mem ["a"] cycleMap "b"
     (@Reaches.step cycleMap ["a"] "a" "b" (Reaches.base (by decide)) (by decide)),
   resolveAllDependencies_reachable_mem ["hero"] heroMissingMap "missing"
     (@Reaches.step heroMissingMap ["hero"] "hero" "missing"
       (Reaches.base (by decide)) (by decide))⟩

/--
C4.  Resolution is idempotent: feeding the resolved set back in as the used
set yields the same set (membership in the two results coincides; only the
set is observable).  Forward: the first result is requirement-closed, so
re-resolving adds nothing; backward: the used names always belong to their
own resolution. -/
theorem resolveAllDependencies_idempotent (used : List String)
    (m : List (String × Component)) :
    ∀ n, n ∈ resolveAllDependencies (resolveAllDependencies used m) m ↔
      n ∈ resolveAllDependencies used m := by
  intro n
  constructor
  · intro h
    exact resolveAux_minimal m (resolveAllDependencies used m)
      (resolveAux_closed m used [] (by simp))
      (resolveAllDependencies used m) [] (fun x hx => hx) (fun x hx => by cases hx) n h
  · intro h
    exact queue_subset_resolveAux m _ [] n h

/-- Modelled from the spec: `filterNeededComponents(allComponents,
neededComponents)` of the absent `src/lib/dependency-resolver.js` — "given
the full discovered sequence of Components and the Needed-Component Set,
return the subsequence of Components whose name is in the set, preserving
original discovery order" (spec §4.3). -/
def filterNeededComponents (allComponents : List Component)
    (neededComponents : List String) : List Component :=
  allComponents.filter (fun c => neededComponents.contains c.name)

/--
C5.  `filterNeededComponents` returns exactly the subsequence of the
discovered components whose name is in the needed set: the result is a
sublist of the input (so discovery order is preserved and the returned
elements are the original, unmodified component values); a component is in
the result exactly when it occurs in the input with its name in the needed
set (no more, no less); and any subsequence of the input all of whose names
are needed embeds into the result (the result is the largest such
subsequence). -/
theorem filterNeededComponents_exact (allComponents : List Component)
    (neededComponents : List String) :
    (filterNeededComponents allComponents neededComponents).Sublist allComponents
      ∧ (∀ c, c ∈ filterNeededComponents allComponents neededComponents ↔
          c ∈ allComponents ∧ c.name ∈ neededComponents)
      ∧ (∀ sub : List Component, sub.Sublist allComponents →
          (∀ c ∈ sub, c.name ∈ neededComponents) →
          sub.Sublist (filterNeededComponents allComponents neededComponents)) := by
  refine ⟨List.filter_sublist _, ?_, ?_⟩
  · intro c
    simp [filterNeededComponents, List.mem_filter]
  · intro sub hsub hmem
    have hself : sub.filter (fun c => neededComponents.contains c.name) = sub := by
      rw [List.filter_eq_self]
      intro a ha
      simpa using hmem a ha
    rw [← hself]
    exact List.Sublist.filter _ hsub

def buttonComp : Component := { name := "button", path := "/button" }

def demoComponents : List Component :=
  [buttonComp, { name := "icon", path := "/icon" }, { name := "unused", path := "/unused" }]

/-- Concrete instantiation of `filterNeededComponents_exact`: the button
component is kept for the needed set {button, icon}, and the singleton
subsequence of qualifying components embeds into the result. -/
theorem filterNeededComponents_exact_witness :
    buttonComp ∈ filterNeededComponents demoComponents ["button", "icon"]
      ∧ List.Sublist [buttonComp] (filterNeededComponents demoComponents ["button", "icon"]) :=
  ⟨((filterNeededComponents_exact demoComponents ["button", "icon"]).2.1 buttonComp).mpr
      ⟨by decide, by decide⟩,
   (filterNeededComponents_exact demoComponents ["button", "icon"]).2.2 [buttonComp]
      (by decide) (by decide)⟩

/-- Character-level split of a path on `/` (keeping empty segments, as
JavaScript's `split('/')` does); written out so that the kernel can
evaluate it on literals. -/
def splitSlash : List Char → List Char → List String
  | [], cur => [String.mk cur.reverse]
  | c :: rest, cur =>
    if c = '/' then String.mk cur.reverse :: splitSlash rest []
    else splitSlash rest (c :: cur)

/-- The non-empty `/`-separated segments of a path, as produced by Node's
path normalization. -/
def splitSegs (p : String) : List String :=
  (splitSlash p.data []).filter (fun s => s ≠ "")

/-- Left-to-right resolution of `.` and `..` segments over the
already-processed stack; `..` above the root stays at the root, as in
Node's `path.resolve` on absolute paths. -/
def normAux : List String → List String → List String
  | acc, [] => acc
  | acc, s :: rest =>
    if s = "." then normAux acc rest
    else if s = ".." then normAux acc.dropLast rest
    else normAux (acc ++ [s]) rest

/-- The normalized segments of an absolute path. -/
def normSegs (p : String) : List String := normAux [] (splitSegs p)

def isAbsolutePath (p : String) : Bool :=
  match p.data with
  | '/' :: _ => true
  | _ => false

/-- `path.resolve(componentPath, assetPath)` in segment form: an absolute
asset path replaces the base, a relative one is appended to it before
normalization. -/
def resolveSegs (componentPath assetPath : String) : List String :=
  if isAbsolutePath assetPath then normAux [] (splitSegs assetPath)
  else normAux [] (splitSegs componentPath ++ splitSegs assetPath)

/-- Segment-wise "is a prefix of" test: the directory's segments must head
the resolved path's segments. -/
def startsWithSegs : List String → List String → Bool
  | [], _ => true
  | _ :: _, [] => false
  | a :: arest, b :: brest => a == b && startsWithSegs arest brest

/-- Modelled from the spec: `isPathSafe(componentPath, assetPath)` of the
absent `src/lib/component-discovery.js` — "reject (drop, do not error) any
path that — once resolved relative to the component directory — would
escape that directory … any path whose resolved form is not prefixed by the
component directory's resolved form" (spec §4.1).  A path is safe when the
component directory's normalized segments head the resolution's
segments. -/
def isPathSafe (componentPath assetPath : String) : Bool :=
  startsWithSegs (normSegs componentPath) (resolveSegs componentPath assetPath)

theorem startsWithSegs_iff : ∀ (b r : List String),
    startsWithSegs b r = true ↔ ∃ t, r = b ++ t := by
  intro b
  induction b with
  | nil => intro r; simp [startsWithSegs]
  | cons a arest ih =>
    intro r
    cases r with
    | nil => simp [startsWithSegs]
    | cons c crest =>
      simp only [startsWithSegs, Bool.and_eq_true, beq_iff_eq]
      rw [ih crest]
      constructor
      · rintro ⟨rfl, t, rfl⟩
        exact ⟨t, rfl⟩
      · rintro ⟨t, h⟩
        rw [List.cons_append] at h
        injection h with h1 h2
        exact ⟨h1.symm, t, h2⟩

theorem normAux_append (u : List String) : ∀ (acc v : List String),
    normAux acc (u ++ v) = normAux (normAux acc u) v := by
  induction u with
  | nil => intro acc v; rfl
  | cons s rest ih =>
    intro acc v
    by_cases h1 : s = "."
    · simp [normAux, h1, ih]
    · by_cases h2 : s = ".."
      · simp [normAux, h1, h2, ih]
      · simp [normAux, h1, h2, ih]

theorem normAux_plain : ∀ (v acc : List String),
    (∀ s ∈ v, s ≠ "." ∧ s ≠ "..") → normAux acc v = acc ++ v := by
  intro v
  induction v with
  | nil => intro acc _; simp [normAux]
  | cons s rest ih =>
    intro acc h
    have hs := h s (List.mem_cons_self _ _)
    rw [normAux, if_neg hs.1, if_neg hs.2,
      ih _ (fun x hx => h x (List.mem_cons_of_mem _ hx))]
    simp

theorem normAux_dot (acc : List String) (v : List String) :
    normAux acc ("." :: v) = normAux acc v := by
  rw [normAux, if_pos rfl]

theorem normAux_up (acc : List String) (v : List String) :
    normAux acc (".." :: v) = normAux acc.dropLast v := by
  rw [normAux, if_neg (by decide), if_pos rfl]

theorem normAux_push (acc : List String) {s : String} (v : List String)
    (h1 : s ≠ ".") (h2 : s ≠ "..") :
    normAux acc (s :: v) = normAux (acc ++ [s]) v := by
  rw [normAux, if_neg h1, if_neg h2]

theorem resolveSegs_rel (cp a : String) (h : isAbsolutePath a = false) :
    resolveSegs cp a = normAux (normSegs cp) (splitSegs a) := by
  unfold resolveSegs
  rw [if_neg (by simp [h]), normAux_append]
  rfl

/-- Dropping at least one segment from a non-root directory and descending
into "x" never stays inside a directory not itself named "x": the prefix
test fails. -/
theorem rejectPre {b d : List String} (h₂ : b.getLastD "" ≠ "x")
    (hd : d.length + 1 ≤ b.length) :
    startsWithSegs b (d ++ ["x"]) = false := by
  cases hx : startsWithSegs b (d ++ ["x"]) with
  | false => rfl
  | true =>
    exfalso
    obtain ⟨t, ht⟩ := (startsWithSegs_iff b _).mp hx
    have hlen := congrArg List.length ht
    simp only [List.length_append, List.length_cons, List.length_nil] at hlen
    have ht0 : t = [] := List.length_eq_zero.mp (by omega)
    subst ht0
    rw [List.append_nil] at ht
    exact h₂ (by rw [← ht]; exact List.getLastD_concat "" "x" d)

/--
C6 (amended).  For every component directory that is not the filesystem
root (`h₁`), is not itself named "x" (`h₂`, otherwise "../x" resolves back
to the directory itself, escaping nothing), and does not contain the probed
absolute path /etc/x (`h₃`, otherwise /etc/x lies inside the directory and
is legitimately accepted — see the counterexample): the sanitizer rejects
'../x', '../../x', the absolute '/etc/x' and the hidden traversal
'a/../../x', and accepts 'x', './x' and 'a/b'. -/
theorem isPathSafe_vectors (componentPath : String)
    (h₁ : normSegs componentPath ≠ [])
    (h₂ : (normSegs componentPath).getLastD "" ≠ "x")
    (h₃ : startsWithSegs (normSegs componentPath) ["etc", "x"] = false) :
    isPathSafe componentPath "../x" = false
      ∧ isPathSafe componentPath "../../x" = false
      ∧ isPathSafe componentPath "/etc/x" = false
      ∧ isPathSafe componentPath "a/../../x" = false
      ∧ isPathSafe componentPath "x" = true
      ∧ isPathSafe componentPath "./x" = true
      ∧ isPathSafe componentPath "a/b" = true := by
  have hb1 : 0 < (normSegs componentPath).length := List.length_pos.mpr h₁
  have hplain : ∀ t : List String, (∀ s ∈ t, s ≠ "." ∧ s ≠ "..") →
      startsWithSegs (normSegs componentPath)
        (normAux (normSegs componentPath) t) = true := by
    intro t ht
    rw [normAux_plain t _ ht]
    exact (startsWithSegs_iff _ _).mpr ⟨t, rfl⟩
  refine ⟨?_, ?_, ?_, ?_, ?_, ?_, ?_⟩
  · show startsWithSegs (normSegs componentPath) (resolveSegs componentPath "../x") = false
    rw [resolveSegs_rel componentPath "../x" (by decide)]
    have hs : splitSegs "../x" = ["..", "x"] := rfl
    rw [hs, normAux_up, normAux_plain _ _ (by decide)]
    exact rejectPre h₂ (by rw [List.length_dropLast]; omega)
  · show startsWithSegs (normSegs componentPath)
      (resolveSegs componentPath "../../x") = false
    rw [resolveSegs_rel componentPath "../../x" (by decide)]
    have hs : splitSegs "../../x" = ["..", "..", "x"] := rfl
    rw [hs, normAux_up, normAux_up, normAux_plain _ _ (by decide)]
    exact rejectPre h₂
      (by rw [List.length_dropLast, List.length_dropLast]; omega)
  · show startsWithSegs (normSegs componentPath)
      (resolveSegs componentPath "/etc/x") = false
    unfold resolveSegs
    rw [if_pos (by decide : isAbsolutePath "/etc/x" = true)]
    have hs : splitSegs "/etc/x" = ["etc", "x"] := rfl
    rw [hs, normAux_plain _ _ (by decide)]
    exact h₃
  · show startsWithSegs (normSegs componentPath)
      (resolveSegs componentPath "a/../../x") = false
    rw [resolveSegs_rel componentPath "a/../../x" (by decide)]
    have hs : splitSegs "a/../../x" = ["a", "..", "..", "x"] := rfl
    rw [hs, normAux_push _ _ (by decide) (by decide), normAux_up,
      List.dropLast_concat, normAux_up, normAux_plain _ _ (by decide)]
    exact rejectPre h₂ (by rw [List.length_dropLast]; omega)
  · show startsWithSegs (normSegs componentPath)
      (resolveSegs componentPath "x") = true
    rw [resolveSegs_rel componentPath "x" (by decide)]
    exact hplain ["x"] (by decide)
  · show startsWithSegs (normSegs componentPath)
      (resolveSegs componentPath "./x") = true
    rw [resolveSegs_rel componentPath "./x" (by decide)]
    have hs : splitSegs "./x" = [".", "x"] := rfl
    rw [hs, normAux_dot]
    exact hplain ["x"] (by decide)
  · show startsWithSegs (normSegs componentPath)
      (resolveSegs componentPath "a/b") = true
    rw [resolveSegs_rel componentPath "a/b" (by decide)]
    exact hplain ["a", "b"] (by decide)

/-- C6 counterexample: for the component directory "/etc" the declared
asset path "/etc/x" resolves to /etc/x, which lies inside (is prefixed by)
that directory, so the sanitizer accepts it — the claimed rejection of
'/etc/x' for *every* component directory fails. -/
theorem isPathSafe_etc_counterexample : isPathSafe "/etc" "/etc/x" = true := by
  decide

/-- Concrete instantiation of `isPathSafe_vectors` at the test suite's
component directory. -/
theorem isPathSafe_vectors_witness :
    isPathSafe "/project/components/button" "../x" = false
      ∧ isPathSafe "/project/components/button" "x" = true :=
  ⟨(isPathSafe_vectors "/project/components/button"
      (by decide) (by decide) (by decide)).1,
   (isPathSafe_vectors "/project/components/button"
      (by decide) (by decide) (by decide)).2.2.2.2.1⟩

/-- JavaScript's `importPath.split('/')`: every `/`-delimited segment,
empty segments kept. -/
def splitPath (p : String) : List String := splitSlash p.data []

/-- The left-to-right marker scan of `extractComponentName`
(`src/lib/template-parser.js` lines 48–55): at a marker segment, return the
following segment when one exists; otherwise (and at non-marker segments)
keep scanning; an exhausted scan yields `none`. -/
def scanSegments (componentDirs : List String) : List String → Option String
  | [] => none
  | s :: rest =>
    if componentDirs.contains s && !rest.isEmpty then rest.head?
    else scanSegments componentDirs rest

/-- `extractComponentName(importPath, componentDirs)` from
`src/lib/template-parser.js` lines 43–58. -/
def extractComponentName (importPath : String) (componentDirs : List String) :
    Option String :=
  scanSegments componentDirs (splitPath importPath)

theorem scanSegments_none (dirs : List String) :
    ∀ segs, (∀ s ∈ segs, dirs.contains s = false) → scanSegments dirs segs = none := by
  intro segs
  induction segs with
  | nil => intro _; rfl
  | cons s rest ih =>
    intro h
    have hs := h s (List.mem_cons_self _ _)
    rw [scanSegments, if_neg (by simp_all)]
    exact ih (fun x hx => h x (List.mem_cons_of_mem _ hx))

theorem scanSegments_found (dirs : List String) :
    ∀ (pre : List String) (mk next : String) (rest : List String),
      dirs.contains mk = true → (∀ s ∈ pre, dirs.contains s = false) →
      scanSegments dirs (pre ++ mk :: next :: rest) = some next := by
  intro pre
  induction pre with
  | nil =>
    intro mk next rest hmk _
    rw [List.nil_append, scanSegments, if_pos (by simp_all)]
    rfl
  | cons s pre ih =>
    intro mk next rest hmk h
    have hs := h s (List.mem_cons_self _ _)
    rw [List.cons_append, scanSegments, if_neg (by simp_all)]
    exact ih mk next rest hmk (fun x hx => h x (List.mem_cons_of_mem _ hx))

theorem scanSegments_markerLast (dirs : List String) :
    ∀ (pre : List String) (mk : String),
      (∀ s ∈ pre, dirs.contains s = false) →
      scanSegments dirs (pre ++ [mk]) = none := by
  intro pre
  induction pre with
  | nil =>
    intro mk _
    rw [List.nil_append, scanSegments, if_neg (by simp)]
    rfl
  | cons s pre ih =>
    intro mk h
    have hs := h s (List.mem_cons_self _ _)
    rw [List.cons_append, scanSegments, if_neg (by simp_all)]
    exact ih mk (fun x hx => h x (List.mem_cons_of_mem _ hx))

/--
C7.  `extractComponentName` splits the matched path literal into
'/'-delimited segments and returns the segment immediately following the
first segment equal to a component-directory marker when such a following
segment exists; it returns null (`none`) for every path containing no
marker segment, and for every path whose (first) marker is the final
segment. -/
theorem extractComponentName_spec (importPath : String) (componentDirs : List String) :
    ((∀ s ∈ splitPath importPath, componentDirs.contains s = false) →
        extractComponentName importPath componentDirs = none)
      ∧ (∀ (pre : List String) (mk next : String) (rest : List String),
          splitPath importPath = pre ++ mk :: next :: rest →
          componentDirs.contains mk = true →
          (∀ s ∈ pre, componentDirs.contains s = false) →
          extractComponentName importPath componentDirs = some next)
      ∧ (∀ (pre : List String) (mk : String),
          splitPath importPath = pre ++ [mk] →
          (∀ s ∈ pre, componentDirs.contains s = false) →
          extractComponentName importPath componentDirs = none) := by
  refine ⟨?_, ?_, ?_⟩
  · intro h
    exact scanSegments_none _ _ h
  · intro pre mk next rest hsplit hmk hpre
    unfold extractComponentName
    rw [hsplit]
    exact scanSegments_found _ pre mk next rest hmk hpre
  · intro pre mk hsplit hpre
    unfold extractComponentName
    rw [hsplit]
    exact scanSegments_markerLast _ pre mk hpre

/-- Concrete instantiation of `extractComponentName_spec` on the test
suite's paths: a partials import yields the component name, and a path
ending in the marker yields no match. -/
theorem extractComponentName_spec_witness :
    extractComponentName "components/_partials/button/button.njk"
        ["_partials", "sections"] = some "button"
      ∧ extractComponentName "components/_partials" ["_partials", "sections"] = none :=
  ⟨(extractComponentName_spec "components/_partials/button/button.njk"
        ["_partials", "sections"]).2.1
      ["components"] "_partials" "button" ["button.njk"]
      (by decide) (by decide) (by decide),
   (extractComponentName_spec "components/_partials" ["_partials", "sections"]).2.2
      ["components"] "_partials" (by decide) (by decide)⟩

/-- The warning printed by `detectUsedComponents`'s per-file handler on a
failed read (`src/lib/template-parser.js` line 142). -/
def readWarning (fullPath errMessage : String) : String :=
  "Warning: Could not read template file " ++ fullPath ++ ": " ++ errMessage

/-- The per-file outcome of the template scan: the component names the file
contributed and the warnings its processing produced. -/
structure ScanResult where
  components : List String
  warnings : List String
deriving DecidableEq, Repr

/--
The per-file task of `detectUsedComponents` (`src/lib/template-parser.js`
lines 119–145), embedded with the filesystem read as an oracle
`reads : path → Except error content` and the pure content analysis
(`gray-matter` front-matter sections plus `parseTemplateFile`'s regex scan)
abstracted as `parse : content → names`, since the claim quantifies over
file contents.  A successful read contributes `parse content` and no
warning; a failed read is caught, logged as a warning, and contributes no
component names. -/
def processTemplateFile (reads : String → Except String String)
    (parse : String → List String) (filePath : String) : ScanResult :=
  match reads filePath with
  | Except.ok content => ⟨parse content, []⟩
  | Except.error e => ⟨[], [readWarning filePath e]⟩

/-- The layout walk (`scanLayoutFiles`, `src/lib/template-parser.js` lines
176–196): each `.njk` file is parsed with the same markup analysis, and a
file that fails to read is silently skipped — no warning, no
contribution. -/
def scanLayoutFilesModel (reads : String → Except String String)
    (parse : String → List String) (layoutFiles : List String) : List String :=
  layoutFiles.flatMap (fun filePath =>
    match reads filePath with
    | Except.ok content => parse content
    | Except.error _ => [])

/-- `detectUsedComponents` (`src/lib/template-parser.js` lines 109–160):
every input template file is processed independently and the per-file
results are unioned, then the layout-walk contribution is unioned in.
The file lists stand for the `glob` result and the recursive `.njk` walk. -/
def detectUsedComponentsModel (reads : String → Except String String)
    (parse : String → List String)
    (templateFiles layoutFiles : List String) : ScanResult :=
  let results := templateFiles.map (processTemplateFile reads parse)
  { components :=
      results.flatMap ScanResult.components ++ scanLayoutFilesModel reads parse layoutFiles,
    warnings := results.flatMap ScanResult.warnings }

theorem mem_detectUsedComponentsModel (reads : String → Except String String)
    (parse : String → List String) (templateFiles layoutFiles : List String)
    (n : String) :
    n ∈ (detectUsedComponentsModel reads parse templateFiles layoutFiles).components ↔
      (∃ fp ∈ templateFiles, ∃ c, reads fp = Except.ok c ∧ n ∈ parse c)
        ∨ (∃ fp ∈ layoutFiles, ∃ c, reads fp = Except.ok c ∧ n ∈ parse c) := by
  unfold detectUsedComponentsModel scanLayoutFilesModel
  simp only [List.mem_append, List.mem_flatMap, List.mem_map]
  constructor
  · rintro (⟨r, ⟨fp, hfp, rfl⟩, hn⟩ | ⟨fp, hfp, hn⟩)
    · left
      refine ⟨fp, hfp, ?_⟩
      unfold processTemplateFile at hn
      cases h : reads fp with
      | ok content => rw [h] at hn; exact ⟨content, rfl, hn⟩
      | error e => rw [h] at hn; cases hn
    · right
      refine ⟨fp, hfp, ?_⟩
      cases h : reads fp with
      | ok content => rw [h] at hn; exact ⟨content, rfl, hn⟩
      | error e => rw [h] at hn; cases hn
  · rintro (⟨fp, hfp, c, hc, hn⟩ | ⟨fp, hfp, c, hc, hn⟩)
    · left
      refine ⟨processTemplateFile reads parse fp, ⟨fp, hfp, rfl⟩, ?_⟩
      unfold processTemplateFile
      rw [hc]
      exact hn
    · right
      refine ⟨fp, hfp, ?_⟩
      rw [hc]
      exact hn

theorem warnings_detectUsedComponentsModel (reads : String → Except String String)
    (parse : String → List String) (templateFiles layoutFiles : List String)
    (w : String) :
    w ∈ (detectUsedComponentsModel reads parse templateFiles layoutFiles).warnings ↔
      ∃ fp ∈ templateFiles, ∃ e, reads fp = Except.error e ∧ w = readWarning fp e := by
  unfold detectUsedComponentsModel
  simp only [List.mem_flatMap, List.mem_map]
  constructor
  · rintro ⟨r, ⟨fp, hfp, rfl⟩, hw⟩
    refine ⟨fp, hfp, ?_⟩
    unfold processTemplateFile at hw
    cases h : reads fp with
    | ok content => rw [h] at hw; cases hw
    | error e =>
      rw [h] at hw
      simp only [List.mem_singleton] at hw
      exact ⟨e, rfl, hw⟩
  · rintro ⟨fp, hfp, e, he, rfl⟩
    refine ⟨processTemplateFile reads parse fp, ⟨fp, hfp, rfl⟩, ?_⟩
    unfold processTemplateFile
    rw [he]
    exact List.mem_cons_self _ _

/--
C8.  In the scanner model: (a) a name is detected exactly when some input
template file or some layout file reads successfully and contributes it, so
a file whose read fails contributes no component names while every other
file is still processed; (b) the warnings are exactly one per failing input
template file (layout-walk failures are silent — they can never produce a
warning); (c) the detected set depends only on which files are in the input
list, not on their processing order: any permutation of the file list
yields the same membership. -/
theorem detectUsedComponents_model_spec (reads : String → Except String String)
    (parse : String → List String) (templateFiles layoutFiles : List String) :
    (∀ n, n ∈ (detectUsedComponentsModel reads parse templateFiles layoutFiles).components ↔
        (∃ fp ∈ templateFiles, ∃ c, reads fp = Except.ok c ∧ n ∈ parse c)
          ∨ (∃ fp ∈ layoutFiles, ∃ c, reads fp = Except.ok c ∧ n ∈ parse c))
      ∧ (∀ w, w ∈ (detectUsedComponentsModel reads parse templateFiles layoutFiles).warnings ↔
          ∃ fp ∈ templateFiles, ∃ e, reads fp = Except.error e ∧ w = readWarning fp e)
      ∧ (∀ templateFiles' layoutFiles', templateFiles.Perm templateFiles' →
          layoutFiles.Perm layoutFiles' → ∀ n,
          n ∈ (detectUsedComponentsModel reads parse templateFiles' layoutFiles').components ↔
            n ∈ (detectUsedComponentsModel reads parse templateFiles layoutFiles).components) := by
  refine ⟨mem_detectUsedComponentsModel reads parse templateFiles layoutFiles,
    warnings_detectUsedComponentsModel reads parse templateFiles layoutFiles, ?_⟩
  intro tf' lf' hperm₁ hperm₂ n
  rw [mem_detectUsedComponentsModel, mem_detectUsedComponentsModel]
  constructor
  · rintro (⟨fp, hfp, hrest⟩ | ⟨fp, hfp, hrest⟩)
    · exact Or.inl ⟨fp, hperm₁.mem_iff.mpr hfp, hrest⟩
    · exact Or.inr ⟨fp, hperm₂.mem_iff.mpr hfp, hrest⟩
  · rintro (⟨fp, hfp, hrest⟩ | ⟨fp, hfp, hrest⟩)
    · exact Or.inl ⟨fp, hperm₁.mem_iff.mp hfp, hrest⟩
    · exact Or.inr ⟨fp, hperm₂.mem_iff.mp hfp, hrest⟩

/-- Oracle for the witness: one readable file, one unreadable file. -/
def demoReads (fp : String) : Except String String :=
  if fp = "index.njk" then Except.ok "banner" else Except.error "EACCES"

/-- Concrete instantiation of `detectUsedComponents_model_spec`: with one
readable and one unreadable input file, the readable file's component is
detected, the unreadable file produces exactly its warning, and reversing
the file order changes nothing. -/
theorem detectUsedComponents_model_spec_witness :
    "banner" ∈ (detectUsedComponentsModel demoReads (fun c => [c])
        ["index.njk", "broken.njk"] []).components
      ∧ readWarning "broken.njk" "EACCES"
          ∈ (detectUsedComponentsModel demoReads (fun c => [c])
              ["index.njk", "broken.njk"] []).warnings
      ∧ ("banner" ∈ (detectUsedComponentsModel demoReads (fun c => [c])
            ["broken.njk", "index.njk"] []).components ↔
          "banner" ∈ (detectUsedComponentsModel demoReads (fun c => [c])
            ["index.njk", "broken.njk"] []).components) :=
  ⟨((detectUsedComponents_model_spec demoReads (fun c => [c])
        ["index.njk", "broken.njk"] []).1 "banner").mpr
      (Or.inl ⟨"index.njk", by decide, "banner", rfl, by decide⟩),
   ((detectUsedComponents_model_spec demoReads (fun c => [c])
        ["index.njk", "broken.njk"] []).2.1 _).mpr
      ⟨"broken.njk", by decide, "EACCES", rfl, rfl⟩,
   (detectUsedComponents_model_spec demoReads (fun c => [c])
        ["index.njk", "broken.njk"] []).2.2
      ["broken.njk", "index.njk"] [] (by decide) (List.Perm.refl _) "banner"⟩

/-- A JSON-like runtime value of page-author section data. -/
inductive JValue where
  | nullV : JValue
  | boolV : Bool → JValue
  | numV : Int → JValue
  | strV : String → JValue
  | arrV : List JValue → JValue
  | objV : List (String × JValue) → JValue

/-- The runtime kind reported in type-violation messages: one of
boolean/string/number/array/object, with `array` distinguished from plain
`object` (spec §4.5); JavaScript's `typeof null` is "object". -/
def typeName : JValue → String
  | JValue.nullV => "object"
  | JValue.boolV _ => "boolean"
  | JValue.numV _ => "number"
  | JValue.strV _ => "string"
  | JValue.arrV _ => "array"
  | JValue.objV _ => "object"

/-- Modelled from the spec: a property's constraint object from a
component manifest's `validation.properties` (spec §3, §4.5) — optional
`type`, optional `const` and optional `enum` (string-valued, the forms the
spec's examples use; the array-only `items` constraint is not exercised by
the claims and is omitted). -/
structure PropRule where
  type : Option String := none
  const : Option String := none
  enumVals : Option (List String) := none

/-- Modelled from the spec: the `type` constraint check of
`src/lib/validation.js` (absent from the source tree, only its unit tests
exist): a declared type that does not match the value's runtime kind yields
"<path>: expected <type>, got <actualType>" (spec §4.5 step 2). -/
def validateTypeConstraint (value : JValue) (rule : PropRule) (path : String) :
    Option String :=
  match rule.type with
  | none => none
  | some t =>
    if typeName value = t then none
    else some (path ++ ": expected " ++ t ++ ", got " ++ typeName value)

/-- Modelled from the spec: the `const` constraint check of the absent
`src/lib/validation.js` — strict equality with the declared constant
(spec §4.5 step 2). -/
def validateConstConstraint (value : JValue) (rule : PropRule) (path : String) :
    Option String :=
  match rule.const with
  | none => none
  | some cv =>
    match value with
    | JValue.strV s =>
      if s = cv then none
      else some (path ++ ": expected \"" ++ cv ++ "\", got \"" ++ s ++ "\"")
    | _ => some (path ++ ": expected \"" ++ cv ++ "\", got a non-string value")

def joinComma : List String → String
  | [] => ""
  | [s] => s
  | s :: rest => s ++ ", " ++ joinComma rest

/-- Modelled from the spec: the `enum` constraint check of the absent
`src/lib/validation.js` — membership in the allowed-value list
(spec §4.5 step 2). -/
def validateEnumConstraint (value : JValue) (rule : PropRule) (path : String) :
    Option String :=
  match rule.enumVals with
  | none => none
  | some vs =>
    match value with
    | JValue.strV s =>
      if vs.contains s then none
      else some (path ++ ": \"" ++ s ++ "\" is invalid. Must be one of: " ++ joinComma vs)
    | _ => some (path ++ ": value is invalid. Must be one of: " ++ joinComma vs)

def isNumericString (s : String) : Bool :=
  !s.data.isEmpty && s.data.all Char.isDigit

def headingEnum (rule : PropRule) : Bool :=
  match rule.enumVals with
  | some vs => !vs.isEmpty && vs.all (fun v => ["h1", "h2", "h3", "h4", "h5", "h6"].contains v)
  | none => false

/-- Modelled from the spec: `generateTip` of the absent
`src/lib/validation.js` (spec §4.5 step 3): a string "false"/"true" failing
a boolean rule tips that the string form always evaluates to true in
template logic and the boolean should be used instead; a numeric-looking
string failing a number rule tips to remove the quotes; a common heading
misspelling failing an h1..h6 enum tips the valid heading tags. -/
def generateTip (value : JValue) (rule : PropRule) : Option String :=
  match value with
  | JValue.strV s =>
    if (s == "false" || s == "true") && rule.type == some "boolean" then
      some ("Tip: String \"" ++ s ++ "\" evaluates to true in templates. Use boolean "
        ++ s ++ " instead.")
    else if isNumericString s && rule.type == some "number" then
      some ("Tip: String \"" ++ s ++ "\" should be a number. Remove quotes: " ++ s)
    else if (s == "header" || s == "heading" || s == "title") && headingEnum rule then
      some "Tip: Use a valid heading tag: h1, h2, h3, h4, h5, or h6."
    else none
  | _ => none

/-- Modelled from the spec: the per-property validation of the absent
`src/lib/validation.js` (spec §4.5 step 2–3): every constraint present on
the rule is applied independently, all violations are collected, and the
advisory tip, when one applies, is appended to the first violation only. -/
def checkPropertyValue (value : JValue) (rule : PropRule) (path : String) :
    List String :=
  let violations := [validateTypeConstraint value rule path,
    validateConstConstraint value rule path,
    validateEnumConstraint value rule path].filterMap id
  match violations, generateTip value rule with
  | [], _ => []
  | first :: rest, some tip => (first ++ "\n" ++ tip) :: rest
  | first :: rest, none => first :: rest

/--
C9.  Validating the literal string value "false" against a rule declaring
type "boolean" fails with exactly one violation; the message carries the
property's path, contains "expected boolean, got string", and ends with the
appended tip that string "false" evaluates to true in template logic and
boolean false should be used instead. -/
theorem stringFalse_boolean_diagnostic (path : String) :
    checkPropertyValue (JValue.strV "false") { type := some "boolean" } path
        = [path ++ ": expected boolean, got string\nTip: String \"false\" evaluates to true in templates. Use boolean false instead."]
      ∧ ∃ pre post,
          path ++ ": expected boolean, got string\nTip: String \"false\" evaluates to true in templates. Use boolean false instead."
            = pre ++ "expected boolean, got string" ++ post := by
  constructor
  · have ht : validateTypeConstraint (JValue.strV "false") { type := some "boolean" } path
        = some (path ++ ": expected " ++ "boolean" ++ ", got " ++ "string") := by
      show (if typeName (JValue.strV "false") = "boolean" then none
        else some (path ++ ": expected " ++ "boolean" ++ ", got "
          ++ typeName (JValue.strV "false")))
          = some (path ++ ": expected " ++ "boolean" ++ ", got " ++ "string")
      rw [if_neg (by decide)]
      rfl
    have hc : validateConstConstraint (JValue.strV "false") { type := some "boolean" } path
        = none := rfl
    have he : validateEnumConstraint (JValue.strV "false") { type := some "boolean" } path
        = none := rfl
    have hg : generateTip (JValue.strV "false") { type := some "boolean" }
        = some "Tip: String \"false\" evaluates to true in templates. Use boolean false instead." := rfl
    simp only [checkPropertyValue, ht, hc, he, hg, List.filterMap, id]
    simp only [String.append_assoc]
    rfl
  · refine ⟨path ++ ": ",
      "\nTip: String \"false\" evaluates to true in templates. Use boolean false instead.", ?_⟩
    simp only [String.append_assoc]
    rfl

/-- `path.join(component.path, file)` as used by `collectComponentAssets`;
inputs are already-normalized paths, so joining is separator insertion. -/
def pathJoin (a b : String) : String := a ++ "/" ++ b

/-- `path.resolve(projectRoot, entry)` as used by `addMainEntries` on
already-normalized inputs: an absolute entry stands alone, a relative one
is anchored at the project root. -/
def pathResolve (root p : String) : String :=
  if isAbsolutePath p then p else root ++ "/" ++ p

/-- The main-entry options consumed by `bundleWithESBuild`
(`src/lib/esbuild-processor.js`); `none` embeds a null/absent entry. -/
structure BundleOptions where
  mainCSSEntry : Option String := none
  mainJSEntry : Option String := none

/-- `Set.add` on the insertion-ordered entry-point sets: appends when the
path is not yet present. -/
def addIfNew (s : List String) (x : String) : List String :=
  if s.contains x then s else s ++ [x]

/-- `addMainEntries(options, projectRoot, cssEntryPoints, jsEntryPoints)`
from `src/lib/esbuild-processor.js` lines 20–34, with `fs.existsSync` as
the oracle `fsExists`: a configured main entry is added only when its
resolved file exists; a missing file is silently skipped. -/
def addMainEntries (fsExists : String → Bool) (options : BundleOptions)
    (projectRoot : String) (cssEntryPoints jsEntryPoints : List String) :
    List String × List String :=
  (match options.mainCSSEntry with
    | some e =>
      if fsExists (pathResolve projectRoot e)
      then addIfNew cssEntryPoints (pathResolve projectRoot e)
      else cssEntryPoints
    | none => cssEntryPoints,
   match options.mainJSEntry with
    | some e =>
      if fsExists (pathResolve projectRoot e)
      then addIfNew jsEntryPoints (pathResolve projectRoot e)
      else jsEntryPoints
    | none => jsEntryPoints)

/-- The per-asset step of `collectComponentAssets`: add the joined path
only when the file exists on disk. -/
def addExistingAssets (fsExists : String → Bool) (componentPath : String)
    (entryPoints : List String) (files : List String) : List String :=
  files.foldl (fun s f =>
    if fsExists (pathJoin componentPath f) then addIfNew s (pathJoin componentPath f)
    else s) entryPoints

/-- `collectComponentAssets(components, cssEntryPoints, jsEntryPoints)` from
`src/lib/esbuild-processor.js` lines 42–58: for each component, each
declared style and script is resolved against the component's directory and
added to the corresponding entry-point set only if it exists
(`fs.existsSync`); a missing file is skipped without error. -/
def collectComponentAssets (fsExists : String → Bool) (components : List Component)
    (cssEntryPoints jsEntryPoints : List String) : List String × List String :=
  components.foldl (fun (acc : List String × List String) component =>
    (addExistingAssets fsExists component.path acc.1 component.styles,
     addExistingAssets fsExists component.path acc.2 component.scripts))
    (cssEntryPoints, jsEntryPoints)

/-- The entry-point assembly of `bundleWithESBuild`
(`src/lib/esbuild-processor.js` lines 324–335): main entries first, then
the assets of base components followed by section components. -/
def collectEntryPoints (fsExists : String → Bool)
    (baseComponents sectionComponents : List Component) (projectRoot : String)
    (options : BundleOptions) : List String × List String :=
  let main := addMainEntries fsExists options projectRoot [] []
  collectComponentAssets fsExists (baseComponents ++ sectionComponents) main.1 main.2

theorem mem_addIfNew {s : List String} {x y : String} :
    y ∈ addIfNew s x ↔ y ∈ s ∨ y = x := by
  unfold addIfNew
  by_cases h : s.contains x
  · rw [if_pos h]
    constructor
    · exact Or.inl
    · rintro (hy | rfl)
      · exact hy
      · simpa using h
  · rw [if_neg h]
    simp

theorem mem_addExistingAssets_exists {fsExists : String → Bool} {cp : String} :
    ∀ (files s : List String), (∀ p ∈ s, fsExists p = true) →
      ∀ p ∈ addExistingAssets fsExists cp s files, fsExists p = true := by
  intro files
  induction files with
  | nil => intro s hs p hp; exact hs p hp
  | cons f rest ih =>
    intro s hs p hp
    unfold addExistingAssets at hp
    rw [List.foldl_cons] at hp
    by_cases h : fsExists (pathJoin cp f) = true
    · rw [if_pos h] at hp
      refine ih _ ?_ p hp
      intro q hq
      rcases mem_addIfNew.mp hq with hq | rfl
      · exact hs q hq
      · exact h
    · rw [if_neg h] at hp
      exact ih _ hs p hp

theorem addExistingAssets_mono {fsExists : String → Bool} {cp : String} :
    ∀ (files s : List String), ∀ p ∈ s, p ∈ addExistingAssets fsExists cp s files := by
  intro files
  induction files with
  | nil => intro s p hp; exact hp
  | cons f rest ih =>
    intro s p hp
    unfold addExistingAssets
    rw [List.foldl_cons]
    by_cases h : fsExists (pathJoin cp f) = true
    · rw [if_pos h]
      exact ih _ p (mem_addIfNew.mpr (Or.inl hp))
    · rw [if_neg h]
      exact ih _ p hp

theorem mem_addExistingAssets_of_declared {fsExists : String → Bool} {cp : String} :
    ∀ (files s : List String) (f : String), f ∈ files →
      fsExists (pathJoin cp f) = true →
      pathJoin cp f ∈ addExistingAssets fsExists cp s files := by
  intro files
  induction files with
  | nil => intro s f hf; cases hf
  | cons g rest ih =>
    intro s f hf hex
    unfold addExistingAssets
    rw [List.foldl_cons]
    rcases List.mem_cons.mp hf with rfl | hf
    · rw [if_pos hex]
      exact addExistingAssets_mono rest _ _ (mem_addIfNew.mpr (Or.inr rfl))
    · by_cases h : fsExists (pathJoin cp g) = true
      · rw [if_pos h]
        exact ih _ f hf hex
      · rw [if_neg h]
        exact ih _ f hf hex

theorem mem_collectComponentAssets_exists (fsExists : String → Bool) :
    ∀ (components : List Component) (css js : List String),
      (∀ p ∈ css, fsExists p = true) → (∀ p ∈ js, fsExists p = true) →
      (∀ p ∈ (collectComponentAssets fsExists components css js).1, fsExists p = true)
        ∧ (∀ p ∈ (collectComponentAssets fsExists components css js).2, fsExists p = true) := by
  intro components
  induction components with
  | nil => intro css js h1 h2; exact ⟨h1, h2⟩
  | cons c rest ih =>
    intro css js h1 h2
    unfold collectComponentAssets
    rw [List.foldl_cons]
    exact ih _ _ (mem_addExistingAssets_exists _ _ h1) (mem_addExistingAssets_exists _ _ h2)

theorem collectComponentAssets_mono (fsExists : String → Bool) :
    ∀ (components : List Component) (css js : List String),
      (∀ p ∈ css, p ∈ (collectComponentAssets fsExists components css js).1)
        ∧ (∀ p ∈ js, p ∈ (collectComponentAssets fsExists components css js).2) := by
  intro components
  induction components with
  | nil => intro css js; exact ⟨fun _ hp => hp, fun _ hp => hp⟩
  | cons c rest ih =>
    intro css js
    unfold collectComponentAssets
    rw [List.foldl_cons]
    constructor
    · intro p hp
      exact (ih _ _).1 p (addExistingAssets_mono _ _ p hp)
    · intro p hp
      exact (ih _ _).2 p (addExistingAssets_mono _ _ p hp)

theorem mem_collectComponentAssets_of_declared (fsExists : String → Bool) :
    ∀ (components : List Component) (css js : List String) (c : Component),
      c ∈ components →
      (∀ f ∈ c.styles, fsExists (pathJoin c.path f) = true →
          pathJoin c.path f ∈ (collectComponentAssets fsExists components css js).1)
        ∧ (∀ f ∈ c.scripts, fsExists (pathJoin c.path f) = true →
          pathJoin c.path f ∈ (collectComponentAssets fsExists components css js).2) := by
  intro components
  induction components with
  | nil => intro css js c hc; cases hc
  | cons d rest ih =>
    intro css js c hc
    unfold collectComponentAssets
    rw [List.foldl_cons]
    rcases List.mem_cons.mp hc with rfl | hc
    · constructor
      · intro f hf hex
        exact (collectComponentAssets_mono fsExists rest _ _).1 _
          (mem_addExistingAssets_of_declared _ _ f hf hex)
      · intro f hf hex
        exact (collectComponentAssets_mono fsExists rest _ _).2 _
          (mem_addExistingAssets_of_declared _ _ f hf hex)
    · exact ih _ _ c hc

theorem addMainEntries_css_exists (fsExists : String → Bool) (options : BundleOptions)
    (root : String) :
    ∀ p ∈ (addMainEntries fsExists options root [] []).1, fsExists p = true := by
  intro p hp
  unfold addMainEntries at hp
  cases he : options.mainCSSEntry with
  | none => rw [he] at hp; cases hp
  | some e =>
    rw [he] at hp
    simp only [] at hp
    by_cases hex : fsExists (pathResolve root e) = true
    · rw [if_pos hex] at hp
      rcases mem_addIfNew.mp hp with h | rfl
      · cases h
      · exact hex
    · rw [if_neg hex] at hp
      cases hp

theorem addMainEntries_js_exists (fsExists : String → Bool) (options : BundleOptions)
    (root : String) :
    ∀ p ∈ (addMainEntries fsExists options root [] []).2, fsExists p = true := by
  intro p hp
  unfold addMainEntries at hp
  cases he : options.mainJSEntry with
  | none => rw [he] at hp; cases hp
  | some e =>
    rw [he] at hp
    simp only [] at hp
    by_cases hex : fsExists (pathResolve root e) = true
    · rw [if_pos hex] at hp
      rcases mem_addIfNew.mp hp with h | rfl
      · cases h
      · exact hex
    · rw [if_neg hex] at hp
      cases hp

theorem mem_addMainEntries_css (fsExists : String → Bool) (options : BundleOptions)
    (root : String) (e : String) (he : options.mainCSSEntry = some e)
    (hex : fsExists (pathResolve root e) = true) :
    pathResolve root e ∈ (addMainEntries fsExists options root [] []).1 := by
  unfold addMainEntries
  rw [he]
  simp only []
  rw [if_pos hex]
  exact mem_addIfNew.mpr (Or.inr rfl)

theorem mem_addMainEntries_js (fsExists : String → Bool) (options : BundleOptions)
    (root : String) (e : String) (he : options.mainJSEntry = some e)
    (hex : fsExists (pathResolve root e) = true) :
    pathResolve root e ∈ (addMainEntries fsExists options root [] []).2 := by
  unfold addMainEntries
  rw [he]
  simp only []
  rw [if_pos hex]
  exact mem_addIfNew.mpr (Or.inr rfl)

/--
C10.  In the entry-point assembly of `bundleWithESBuild` (main CSS/JS
entries via `addMainEntries`, then the declared styles and scripts of every
component via `collectComponentAssets`), a declared asset or configured
main entry whose resolved file does not exist on disk is silently omitted —
the assembly is a total function, and every path in the two entry-point
sets satisfies the existence oracle — while every declared asset and
configured main entry whose file does exist is included.  Only files that
exist are ever handed to the bundler. -/
theorem bundleWithESBuild_entry_points_exist (fsExists : String → Bool)
    (baseComponents sectionComponents : List Component) (projectRoot : String)
    (options : BundleOptions) :
    (∀ p ∈ (collectEntryPoints fsExists baseComponents sectionComponents
        projectRoot options).1, fsExists p = true)
      ∧ (∀ p ∈ (collectEntryPoints fsExists baseComponents sectionComponents
          projectRoot options).2, fsExists p = true)
      ∧ (∀ e, options.mainCSSEntry = some e →
          fsExists (pathResolve projectRoot e) = true →
          pathResolve projectRoot e ∈ (collectEntryPoints fsExists baseComponents
            sectionComponents projectRoot options).1)
      ∧ (∀ e, options.mainJSEntry = some e →
          fsExists (pathResolve projectRoot e) = true →
          pathResolve projectRoot e ∈ (collectEntryPoints fsExists baseComponents
            sectionComponents projectRoot options).2)
      ∧ (∀ c ∈ baseComponents ++ sectionComponents, ∀ f ∈ c.styles,
          fsExists (pathJoin c.path f) = true →
          pathJoin c.path f ∈ (collectEntryPoints fsExists baseComponents
            sectionComponents projectRoot options).1)
      ∧ (∀ c ∈ baseComponents ++ sectionComponents, ∀ f ∈ c.scripts,
          fsExists (pathJoin c.path f) = true →
          pathJoin c.path f ∈ (collectEntryPoints fsExists baseComponents
            sectionComponents projectRoot options).2) := by
  have hex := mem_collectComponentAssets_exists fsExists
    (baseComponents ++ sectionComponents) _ _
    (addMainEntries_css_exists fsExists options projectRoot)
    (addMainEntries_js_exists fsExists options projectRoot)
  have hmono := collectComponentAssets_mono fsExists (baseComponents ++ sectionComponents)
    (addMainEntries fsExists options projectRoot [] []).1
    (addMainEntries fsExists options projectRoot [] []).2
  refine ⟨hex.1, hex.2, ?_, ?_, ?_, ?_⟩
  · intro e he hfe
    exact hmono.1 _ (mem_addMainEntries_css fsExists options projectRoot e he hfe)
  · intro e he hfe
    exact hmono.2 _ (mem_addMainEntries_js fsExists options projectRoot e he hfe)
  · intro c hc f hf hfe
    exact (mem_collectComponentAssets_of_declared fsExists _ _ _ c hc).1 f hf hfe
  · intro c hc f hf hfe
    exact (mem_collectComponentAssets_of_declared fsExists _ _ _ c hc).2 f hf hfe

/-- Existence oracle for the witness: only the two listed files exist. -/
def demoExists (p : String) : Bool :=
  p = "/proj/button/button.css" || p = "/proj/main.css"

/-- A component declaring one existing and one missing style. -/
def demoButton : Component :=
  { name := "button", path := "/proj/button",
    styles := ["button.css", "non-existent.css"] }

/-- Concrete instantiation of `bundleWithESBuild_entry_points_exist`: a
component declaring one existing and one missing style, plus an existing
main CSS entry: everything in the CSS entry-point set exists (the missing
style was dropped silently), and both existing files are included. -/
theorem bundleWithESBuild_entry_points_exist_witness :
    (∀ p ∈ (collectEntryPoints demoExists [demoButton] [] "/proj"
        { mainCSSEntry := some "main.css" }).1, demoExists p = true)
      ∧ "/proj/main.css" ∈ (collectEntryPoints demoExists [demoButton] [] "/proj"
          { mainCSSEntry := some "main.css" }).1
      ∧ pathJoin "/proj/button" "button.css" ∈ (collectEntryPoints demoExists
          [demoButton] [] "/proj" { mainCSSEntry := some "main.css" }).1 :=
  ⟨(bundleWithESBuild_entry_points_exist demoExists [demoButton] [] "/proj"
      { mainCSSEntry := some "main.css" }).1,
   by
    have h := (bundleWithESBuild_entry_points_exist demoExists [demoButton] [] "/proj"
      { mainCSSEntry := some "main.css" }).2.2.1 "main.css" rfl (by decide)
    simpa using h,
   by
    have h := (bundleWithESBuild_entry_points_exist demoExists [demoButton] [] "/proj"
      { mainCSSEntry := some "main.css" }).2.2.2.2.1 demoButton (by decide)
      "button.css" (by decide) (by decide)
    simpa using h⟩

end EPB
